import Mathlib

/-!
# Verification of the ink! lazy contract-storage layer

Shallow embedding of the lazy storage subsystem:

* `Blake2b` — the BLAKE2b-256 hash used by `Blake2x256Hasher`
  (external hasher capability; modelled bit-exactly from the RFC 7693
  algorithm that the injected hasher implements, validated against the
  repository's own test vectors in `key_at_works`).
* `Ink` — `LazyHashMap` from `src/core/src/storage2/lazy/lazy_hmap.rs`
  together with the `Entry`/`EntryState` cache protocol and the
  `SpreadLayout` push/pull protocol.
* `Pdsl` — `Key`/`KeyDiff` arithmetic from
  `src/pdsl_core/src/storage/key.rs` and the `SyncCell` single-slot
  cache from `src/pdsl_core/src/storage/cell/sync_cell.rs`.

Machine integers are modelled as `Nat` with explicit reductions
modulo `2 ^ 64` (hash words) or `2 ^ 256` (storage keys); byte strings
are `List Nat` with every byte `< 256`.
-/

set_option autoImplicit false
set_option maxRecDepth 10000
set_option linter.unusedSectionVars false
set_option linter.unusedVariables false

/-! ## BLAKE2b-256

The hasher capability consumed by `LazyHashMap` (`Blake2x256Hasher`).
Words are 64-bit, modelled as `Nat` reduced mod `2 ^ 64`. -/

namespace Blake2b

/-- 64-bit addition with wraparound. -/
def add64 (a b : Nat) : Nat := (a + b) % 2 ^ 64

/-- 64-bit rotation to the right by `n` bits (for `x < 2 ^ 64`). -/
def rotr64 (x n : Nat) : Nat := (x >>> n) ||| ((x <<< (64 - n)) % 2 ^ 64)

/-- The BLAKE2b initialization vector (RFC 7693). -/
def IV : List Nat :=
  [0x6A09E667F3BCC908, 0xBB67AE8584CAA73B, 0x3C6EF372FE94F82B,
   0xA54FF53A5F1D36F1, 0x510E527FADE682D1, 0x9B05688C2B3E6C1F,
   0x1F83D9ABFB41BD6B, 0x5BE0CD19137E2179]

/-- The BLAKE2b message schedule (RFC 7693). -/
def SIGMA : List (List Nat) :=
  [[0, 1, 2, 3, 4, 5, 6, 7, 8, 9, 10, 11, 12, 13, 14, 15],
   [14, 10, 4, 8, 9, 15, 13, 6, 1, 12, 0, 2, 11, 7, 5, 3],
   [11, 8, 12, 0, 5, 2, 15, 13, 10, 14, 3, 6, 7, 1, 9, 4],
   [7, 9, 3, 1, 13, 12, 11, 14, 2, 6, 5, 10, 4, 0, 15, 8],
   [9, 0, 5, 7, 2, 4, 10, 15, 14, 1, 11, 12, 6, 8, 3, 13],
   [2, 12, 6, 10, 0, 11, 8, 3, 4, 13, 7, 5, 15, 14, 1, 9],
   [12, 5, 1, 15, 14, 13, 4, 10, 0, 7, 6, 3, 9, 2, 8, 11],
   [13, 11, 7, 14, 12, 1, 3, 9, 5, 0, 15, 4, 8, 6, 2, 10],
   [6, 15, 14, 9, 11, 3, 0, 8, 12, 2, 13, 7, 1, 4, 10, 5],
   [10, 2, 8, 4, 7, 6, 1, 5, 15, 11, 9, 14, 3, 12, 13, 0]]

/-- The BLAKE2b mixing function `G` acting on the 16-word work vector. -/
def g (v : List Nat) (a b c d x y : Nat) : List Nat :=
  let va := add64 (add64 (v.getD a 0) (v.getD b 0)) x
  let vd := rotr64 ((v.getD d 0) ^^^ va) 32
  let vc := add64 (v.getD c 0) vd
  let vb := rotr64 ((v.getD b 0) ^^^ vc) 24
  let va := add64 (add64 va vb) y
  let vd := rotr64 (vd ^^^ va) 16
  let vc := add64 vc vd
  let vb := rotr64 (vb ^^^ vc) 63
  (((v.set a va).set b vb).set c vc).set d vd

/-- One BLAKE2b round: eight applications of `g` scheduled by `s`. -/
def round (m v s : List Nat) : List Nat :=
  let m := fun i : Nat => m.getD (s.getD i 0) 0
  let v := g v 0 4 8 12 (m 0) (m 1)
  let v := g v 1 5 9 13 (m 2) (m 3)
  let v := g v 2 6 10 14 (m 4) (m 5)
  let v := g v 3 7 11 15 (m 6) (m 7)
  let v := g v 0 5 10 15 (m 8) (m 9)
  let v := g v 1 6 11 12 (m 10) (m 11)
  let v := g v 2 7 8 13 (m 12) (m 13)
  g v 3 4 9 14 (m 14) (m 15)

/-- Interpret a byte list as a little-endian natural number. -/
def leToNat : List Nat → Nat
  | [] => 0
  | b :: t => b + 256 * leToNat t

/-- Split a 128-byte block into sixteen little-endian 64-bit words. -/
def msgWords (block : List Nat) : List Nat :=
  (List.range 16).map fun i => leToNat ((block.drop (8 * i)).take 8)

/-- The BLAKE2b compression function: `h` state words, `m` message
words, `t` byte offset, `last` final-block flag. -/
def compress (h m : List Nat) (t : Nat) (last : Bool) : List Nat :=
  let v := h ++ IV
  let v := v.set 12 ((v.getD 12 0) ^^^ (t % 2 ^ 64))
  let v := v.set 13 ((v.getD 13 0) ^^^ (t / 2 ^ 64 % 2 ^ 64))
  let v := if last then v.set 14 ((v.getD 14 0) ^^^ (2 ^ 64 - 1)) else v
  let v := (List.range 12).foldl (fun v i => round m v (SIGMA.getD (i % 10) [])) v
  (List.range 8).map fun i => (h.getD i 0) ^^^ ((v.getD i 0) ^^^ (v.getD (i + 8) 0))

/-- Streaming hasher state: chained state `h`, bytes already
compressed `t`, and the not-yet-compressed buffer. -/
structure State where
  h : List Nat
  t : Nat
  buffer : List Nat
  deriving DecidableEq, Repr

/-- Initial state for a 32-byte digest and no key:
`h0` is `IV0 xor 0x01010020` (digest length 32, fanout 1, depth 1). -/
def init : State :=
  { h := IV.set 0 ((IV.getD 0 0) ^^^ 0x01010020), t := 0, buffer := [] }

/-- Absorb one message byte, compressing a full buffer first when more
input arrives. -/
def State.update1 (s : State) (byte : Nat) : State :=
  if s.buffer.length = 128 then
    { h := compress s.h (msgWords s.buffer) (s.t + 128) false,
      t := s.t + 128,
      buffer := [byte] }
  else
    { s with buffer := s.buffer ++ [byte] }

/-- Absorb a byte string. -/
def State.update (s : State) (bytes : List Nat) : State :=
  bytes.foldl State.update1 s

/-- Finalize: compress the zero-padded last block with the final-block
flag set and serialize the first four state words little-endian. -/
def State.finalize (s : State) : List Nat :=
  let h := compress s.h
    (msgWords (s.buffer ++ List.replicate (128 - s.buffer.length) 0))
    (s.t + s.buffer.length) true
  ((List.range 4).map fun i =>
    (List.range 8).map fun j => ((h.getD i 0) >>> (8 * j)) % 256).flatten

/-- BLAKE2b with a 256-bit digest of a byte string. -/
def blake2b256 (msg : List Nat) : List Nat :=
  (init.update msg).finalize

/-- Sanity: the RFC 7693 / test-suite vector for the empty message. -/
example :
    blake2b256 [] =
      [0x0e, 0x57, 0x51, 0xc0, 0x26, 0xe5, 0x43, 0xb2,
       0xe8, 0xab, 0x2e, 0xb0, 0x60, 0x99, 0xda, 0xa1,
       0xd1, 0xe5, 0xdf, 0x47, 0x77, 0x8f, 0x77, 0x87,
       0xfa, 0xab, 0x45, 0xcd, 0xf1, 0x2f, 0xe3, 0xa8] := by decide

end Blake2b

/-! ## Byte strings, the host store and association lists -/

/-- Byte strings: lists of naturals, each byte `< 256`. -/
abbrev Bytes := List Nat

/-- First match in an association list (used both for the entry cache
and the host store). -/
def assocFind {K β : Type} [DecidableEq K] : List (K × β) → K → Option β
  | [], _ => none
  | (k', v) :: t, k => if k = k' then some v else assocFind t k

/-- Replace-or-append insertion, insertion-ordered (host store). -/
def assocPut {K β : Type} [DecidableEq K] : List (K × β) → K → β → List (K × β)
  | [], k, v => [(k, v)]
  | (k', v') :: t, k, v =>
    if k = k' then (k, v) :: t else (k', v') :: assocPut t k v

/-- Remove a key from an association list. -/
def assocErase {K β : Type} [DecidableEq K] : List (K × β) → K → List (K × β)
  | [], _ => []
  | (k', v') :: t, k => if k = k' then t else (k', v') :: assocErase t k

/-- Order-preserving insertion into a sorted association list: the
model of `BTreeMap::insert` / the vacant-entry insertion, keeping the
`BTreeMap`'s sorted iteration order. -/
def assocInsert {K β : Type} [LinearOrder K] : List (K × β) → K → β → List (K × β)
  | [], k, v => [(k, v)]
  | (k', v') :: t, k, v =>
    if k < k' then (k, v) :: (k', v') :: t
    else if k = k' then (k, v) :: t
    else (k', v') :: assocInsert t k v

theorem assocFind_assocInsert_self {K β : Type} [LinearOrder K]
    (l : List (K × β)) (k : K) (v : β) :
    assocFind (assocInsert l k v) k = some v := by
  induction l with
  | nil => simp [assocInsert, assocFind]
  | cons h t ih =>
    obtain ⟨k', v'⟩ := h
    by_cases h1 : k < k'
    · simp [assocInsert, h1, assocFind]
    · by_cases h2 : k = k'
      · simp [assocInsert, h1, h2, assocFind]
      · simp [assocInsert, h1, h2, assocFind, ih]

theorem assocFind_assocInsert_ne {K β : Type} [LinearOrder K]
    (l : List (K × β)) (k k' : K) (v : β) (h : k' ≠ k) :
    assocFind (assocInsert l k v) k' = assocFind l k' := by
  induction l with
  | nil => simp [assocInsert, assocFind, h]
  | cons hd t ih =>
    obtain ⟨k0, v0⟩ := hd
    by_cases h1 : k < k0
    · simp [assocInsert, h1, assocFind, h]
    · by_cases h2 : k = k0
      · subst h2
        simp [assocInsert, h1, assocFind, h]
      · simp [assocInsert, h1, h2, assocFind, ih]

/-- Modelled from the spec: the host storage ABI of §6
(`load/store/clear` by 256-bit key) — the raw host primitives are not
part of the sources. The store is a key-to-bytes association list. -/
abbrev Storage := List (Bytes × Bytes)

/-- Host `load`. -/
def Storage.load (st : Storage) (k : Bytes) : Option Bytes := assocFind st k

/-- Host `store`. -/
def Storage.store (st : Storage) (k v : Bytes) : Storage := assocPut st k v

/-- Host `clear`. -/
def Storage.clear (st : Storage) (k : Bytes) : Storage := assocErase st k

/-! ## The SCALE codec fragments the claims use

The codec is an external capability (§6): deterministic byte encoding.
`i32` keys encode as 4 little-endian two's-complement bytes, `u8`
values as a single byte, and `[u8; N]` arrays as their raw bytes. -/

/-- Modelled from the spec: SCALE encoding of an `i32` key — 4
little-endian two's-complement bytes (the codec implementation is not
part of the sources). -/
def encI32 (z : Int) : Bytes :=
  let n := (z % 2 ^ 32).toNat
  [n % 256, n / 2 ^ 8 % 256, n / 2 ^ 16 % 256, n / 2 ^ 24 % 256]

/-- Modelled from the spec: SCALE encoding of a `u8` value — one byte. -/
def encU8 (v : Nat) : Bytes := [v % 256]

/-- Modelled from the spec: SCALE decoding of a `u8` value. -/
def decU8 : Bytes → Option Nat
  | [b] => some b
  | _ => none

/-! ## Entry and dirty-state tracking

`Entry`/`EntryState` live in `storage2/lazy/entry.rs`, which is not
among the sources; they are modelled from the spec (§3, §4.2) and
pinned by the in-source tests `put_get_works`, `get_works`,
`swap_works` and `spread_layout_works` of `lazy_hmap.rs`. -/

/-- The dirty-state tag of a cached entry (§3). -/
inductive EntryState : Type
  | Preserved : EntryState
  | Mutated : EntryState
  deriving DecidableEq, Repr

/-- A cached entry: optional value plus dirty-state tag (§3). -/
structure Entry (V : Type) where
  value : Option V
  state : EntryState
  deriving DecidableEq, Repr

/-- Modelled from the spec: `Entry::put` replaces the value and
returns the old one. Writing `Some` always marks the entry `Mutated`;
writing `None` takes the old value and marks `Mutated` only when a
value was actually removed, as pinned by Scenarios B/C of §8 and the
in-source `put_get_works` test (a `None`-over-`None` write leaves the
state unchanged). -/
def Entry.put {V : Type} (e : Entry V) (newValue : Option V) : Option V × Entry V :=
  match newValue with
  | some v => (e.value, ⟨some v, EntryState.Mutated⟩)
  | none =>
    (e.value,
     ⟨none, if e.value.isSome then EntryState.Mutated else e.state⟩)

/-- Modelled from the spec (§4.2): `Entry::push_packed_root` writes
the entry to the host iff its state is `Mutated` — `Some` stores the
encoded value, `None` clears the slot — and transitions the state to
`Preserved`; a `Preserved` entry touches nothing. -/
def Entry.push_packed_root {V : Type} (e : Entry V) (encV : V → Bytes)
    (root : Bytes) (st : Storage) : Storage × Entry V :=
  match e.state with
  | EntryState.Mutated =>
    (match e.value with
     | some v => Storage.store st root (encV v)
     | none => Storage.clear st root,
     ⟨e.value, EntryState.Preserved⟩)
  | EntryState.Preserved => (st, e)

/-! ## LazyHashMap (`src/core/src/storage2/lazy/lazy_hmap.rs`) -/

namespace Ink

/-- Errors surfaced as panics by the Rust code (§7). -/
inductive Err : Type
  | decodeError : Err
  | unboundMap : Err
  | missingEntity : Err
  deriving DecidableEq, Repr

/-- Modelled from the spec: the `HashBuilder` hasher scratch state
(`crate::hash::HashBuilder`, not among the sources). `hash_encoded`
resets the accumulator, encodes the input into the scratch buffer and
hashes it (§4.5: "The hash accumulator MUST be reset before each
derivation"). -/
structure HashBuilder where
  buffer : Bytes
  deriving DecidableEq, Repr

/-- Reset the accumulator, encode, hash. -/
def HashBuilder.hash_encoded (_hb : HashBuilder) (hash : Bytes → Bytes)
    (encoded : Bytes) : Bytes × HashBuilder :=
  (hash encoded, { buffer := encoded })

/-- The fixed 11-byte ASCII tag `"ink hashmap"`. -/
def hashmapTag : Bytes :=
  [0x69, 0x6E, 0x6B, 0x20, 0x68, 0x61, 0x73, 0x68, 0x6D, 0x61, 0x70]

/-- SCALE encoding of the `KeyPair` struct of `to_offset_key`:
concatenation of the 11-byte tag, the raw 32 bytes of the storage key
and the encoded user key. -/
def hashmapKeyPair (storage_key encodedKey : Bytes) : Bytes :=
  hashmapTag ++ storage_key ++ encodedKey

/-- `LazyHashMap`: optional root key, cached entries (sorted by user
key, mirroring `BTreeMap` iteration), and the per-instance hasher
scratch state. The hasher and codec capabilities are passed to the
operations as functions. -/
structure LazyHashMap (K V : Type) where
  key : Option Bytes
  cached_entries : List (K × Entry V)
  hash_builder : HashBuilder
  deriving DecidableEq, Repr

section Ops

variable {K V : Type} [LinearOrder K]
variable (hash : Bytes → Bytes) (encK : K → Bytes)
variable (encV : V → Bytes) (decV : Bytes → Option V)

/-- `LazyHashMap::new`: no root key, empty cache, fresh hasher. -/
def LazyHashMap.new : LazyHashMap K V :=
  { key := none, cached_entries := [], hash_builder := ⟨[]⟩ }

/-- `LazyHashMap::lazy`: bound at the given key, empty cache. -/
def LazyHashMap.lazy (key : Bytes) : LazyHashMap K V :=
  { key := some key, cached_entries := [], hash_builder := ⟨[]⟩ }

/-- `LazyHashMap::to_offset_key`: hash of the encoded
`(tag, storage_key, user key)` triple through the hasher state. -/
def LazyHashMap.to_offset_key (m : LazyHashMap K V) (storage_key : Bytes)
    (k : K) : Bytes × LazyHashMap K V :=
  let p := m.hash_builder.hash_encoded hash (hashmapKeyPair storage_key (encK k))
  (p.1, { m with hash_builder := p.2 })

/-- `LazyHashMap::key_at`: derived slot for `k` if the map is bound. -/
def LazyHashMap.key_at (m : LazyHashMap K V) (k : K) :
    Option Bytes × LazyHashMap K V :=
  match m.key with
  | none => (none, m)
  | some storage_key =>
    let p := m.to_offset_key hash encK storage_key k
    (some p.1, p.2)

/-- Modelled from the spec (§4.3, §6): `pull_packed_root_opt` — load
the slot's bytes from the host and decode them; absent slot is `None`,
undecodable bytes are a fatal `DecodeError`. -/
def pull_packed_root_opt (st : Storage) (root : Bytes) :
    Except Err (Option V) :=
  match Storage.load st root with
  | none => Except.ok none
  | some bytes =>
    match decV bytes with
    | some v => Except.ok (some v)
    | none => Except.error Err.decodeError

/-- The value a cache miss loads: `self.key_at(key).map(|key|
pull_packed_root_opt::<V>(&key)).unwrap_or(None)` — `None` when the
map is unbound. -/
def LazyHashMap.load_value (m : LazyHashMap K V) (st : Storage) (k : K) :
    Except Err (Option V) :=
  match (m.key_at hash encK k).1 with
  | none => Except.ok none
  | some root => pull_packed_root_opt decV st root

/-- `LazyHashMap::lazily_load`: cache hit returns the cached entry;
on a miss the value is pulled from the derived slot when the map is
bound (`None` when unbound) and cached with state `Preserved`. -/
def LazyHashMap.lazily_load (m : LazyHashMap K V) (st : Storage) (k : K) :
    Except Err (LazyHashMap K V × Entry V) :=
  match assocFind m.cached_entries k with
  | some e => Except.ok (m, e)
  | none =>
    (m.load_value hash encK decV st k).map fun value =>
      let e : Entry V := ⟨value, EntryState.Preserved⟩
      ({ (m.key_at hash encK k).2 with
          cached_entries :=
            assocInsert (m.key_at hash encK k).2.cached_entries k e }, e)

/-- `LazyHashMap::get`: the value of the lazily loaded entry. -/
def LazyHashMap.get (m : LazyHashMap K V) (st : Storage) (k : K) :
    Except Err (LazyHashMap K V × Option V) :=
  (m.lazily_load hash encK decV st k).map fun q => (q.1, q.2.value)

/-- `LazyHashMap::put`: unconditionally cache `Entry(new, Mutated)`
without touching the host. -/
def LazyHashMap.put (m : LazyHashMap K V) (k : K) (newValue : Option V) :
    LazyHashMap K V :=
  { m with
    cached_entries :=
      assocInsert m.cached_entries k ⟨newValue, EntryState.Mutated⟩ }

/-- `LazyHashMap::put_get`: lazily load, then `Entry::put`, returning
the old value. -/
def LazyHashMap.put_get (m : LazyHashMap K V) (st : Storage) (k : K)
    (newValue : Option V) : Except Err (LazyHashMap K V × Option V) :=
  (m.lazily_load hash encK decV st k).map fun q =>
    let r := q.2.put newValue
    ({ q.1 with cached_entries := assocInsert q.1.cached_entries k r.2 },
     r.1)

/-- `LazyHashMap::swap`: early-out on equal keys; load both entries;
early-out when both values are `None`; otherwise mark both `Mutated`
and exchange the values. -/
def LazyHashMap.swap (m : LazyHashMap K V) (st : Storage) (x y : K) :
    Except Err (LazyHashMap K V) :=
  if x = y then Except.ok m
  else do
    let q1 ← m.lazily_load hash encK decV st x
    let q2 ← q1.1.lazily_load hash encK decV st y
    let ex := q1.2
    let ey := q2.2
    if ex.value.isNone && ey.value.isNone then Except.ok q2.1
    else
      Except.ok
        { q2.1 with
          cached_entries :=
            assocInsert
              (assocInsert q2.1.cached_entries x
                ⟨ey.value, EntryState.Mutated⟩)
              y ⟨ex.value, EntryState.Mutated⟩ }

/-- `LazyHashMap::clear_packed_at`: requires a bound root (panics —
`Err.unboundMap` — otherwise). When `V` requires deep clean-up
(`deep`), the value is loaded through `self.get` (panicking —
`Err.missingEntity` — when absent) and handed to `clear_packed_root`
(abstract parameter `cpr`); otherwise the derived slot is cleared
directly without loading. The cache is deliberately not updated to
reflect the clear. -/
def LazyHashMap.clear_packed_at (deep : Bool)
    (cpr : V → Bytes → Storage → Storage) (m : LazyHashMap K V)
    (st : Storage) (k : K) : Except Err (LazyHashMap K V × Storage) :=
  match (m.key_at hash encK k).1 with
  | none => Except.error Err.unboundMap
  | some root =>
    if deep then
      match (m.key_at hash encK k).2.get hash encK decV st k with
      | Except.error e => Except.error e
      | Except.ok (_, none) => Except.error Err.missingEntity
      | Except.ok (m2, some v) => Except.ok (m2, cpr v root st)
    else
      Except.ok ((m.key_at hash encK k).2, Storage.clear st root)

/-- `SpreadLayout::push_spread` for `LazyHashMap` (`FOOTPRINT = 1`):
the offset key is the root the `KeyPtr` hands out; every cached entry
is pushed to its derived slot via `Entry::push_packed_root`. -/
def LazyHashMap.push_spread (m : LazyHashMap K V) (offset_key : Bytes)
    (st : Storage) : Storage × LazyHashMap K V :=
  let step :=
    fun (acc : Storage × HashBuilder × List (K × Entry V))
        (ke : K × Entry V) =>
      let root := acc.2.1.hash_encoded hash (hashmapKeyPair offset_key (encK ke.1))
      let pushed := ke.2.push_packed_root encV root.1 acc.1
      (pushed.1, root.2, acc.2.2 ++ [(ke.1, pushed.2)])
  let r := m.cached_entries.foldl step (st, m.hash_builder, [])
  (r.1, { m with hash_builder := r.2.1, cached_entries := r.2.2 })

/-- `SpreadLayout::pull_spread` for `LazyHashMap`: a lazily bound map
with an empty cache at the key the `KeyPtr` hands out. -/
def LazyHashMap.pull_spread (offset_key : Bytes) : LazyHashMap K V :=
  LazyHashMap.lazy offset_key

/-- The observable value of `get`, discarding the updated cache: what
a caller of `get(&self)` sees. -/
def LazyHashMap.valueAt (m : LazyHashMap K V) (st : Storage) (k : K) :
    Except Err (Option V) :=
  (m.get hash encK decV st k).map fun q => q.2

end Ops

section OpLemmas

variable {K V : Type} [LinearOrder K]
variable (hash : Bytes → Bytes) (encK : K → Bytes) (decV : Bytes → Option V)

theorem LazyHashMap.key_at_fst (m : LazyHashMap K V) (k : K) :
    (m.key_at hash encK k).1 =
      m.key.map fun r => hash (hashmapKeyPair r (encK k)) := by
  cases h : m.key <;>
    simp [LazyHashMap.key_at, LazyHashMap.to_offset_key,
      HashBuilder.hash_encoded, h]

theorem LazyHashMap.key_at_entries (m : LazyHashMap K V) (k : K) :
    (m.key_at hash encK k).2.cached_entries = m.cached_entries := by
  cases h : m.key <;>
    simp [LazyHashMap.key_at, LazyHashMap.to_offset_key, h]

theorem LazyHashMap.key_at_key (m : LazyHashMap K V) (k : K) :
    (m.key_at hash encK k).2.key = m.key := by
  cases h : m.key <;>
    simp [LazyHashMap.key_at, LazyHashMap.to_offset_key, h]

theorem LazyHashMap.load_value_congr {m m' : LazyHashMap K V}
    (st : Storage) (k : K) (h : m.key = m'.key) :
    m.load_value hash encK decV st k = m'.load_value hash encK decV st k := by
  unfold LazyHashMap.load_value
  rw [LazyHashMap.key_at_fst, LazyHashMap.key_at_fst, h]

theorem LazyHashMap.lazily_load_hit {m : LazyHashMap K V} {k : K}
    {e : Entry V} (st : Storage)
    (h : assocFind m.cached_entries k = some e) :
    m.lazily_load hash encK decV st k = Except.ok (m, e) := by
  simp [LazyHashMap.lazily_load, h]

theorem LazyHashMap.lazily_load_find {m m' : LazyHashMap K V}
    {st : Storage} {k : K} {e : Entry V}
    (h : m.lazily_load hash encK decV st k = Except.ok (m', e)) :
    assocFind m'.cached_entries k = some e := by
  unfold LazyHashMap.lazily_load at h
  cases hf : assocFind m.cached_entries k with
  | some e0 =>
    rw [hf] at h
    simp only [Except.ok.injEq, Prod.mk.injEq] at h
    rw [← h.1, hf, h.2]
  | none =>
    rw [hf] at h
    cases hl : m.load_value hash encK decV st k with
    | error err => rw [hl] at h; simp [Except.map] at h
    | ok value =>
      rw [hl] at h
      simp only [Except.map, Except.ok.injEq, Prod.mk.injEq] at h
      rw [← h.1, ← h.2]
      exact assocFind_assocInsert_self _ _ _

theorem LazyHashMap.lazily_load_frame {m m' : LazyHashMap K V}
    {st : Storage} {k : K} {e : Entry V}
    (h : m.lazily_load hash encK decV st k = Except.ok (m', e))
    (k' : K) (hk : k' ≠ k) :
    assocFind m'.cached_entries k' = assocFind m.cached_entries k' := by
  unfold LazyHashMap.lazily_load at h
  cases hf : assocFind m.cached_entries k with
  | some e0 =>
    rw [hf] at h
    simp only [Except.ok.injEq, Prod.mk.injEq] at h
    rw [← h.1]
  | none =>
    rw [hf] at h
    cases hl : m.load_value hash encK decV st k with
    | error err => rw [hl] at h; simp [Except.map] at h
    | ok value =>
      rw [hl] at h
      simp only [Except.map, Except.ok.injEq, Prod.mk.injEq] at h
      rw [← h.1]
      simp only []
      rw [assocFind_assocInsert_ne _ _ _ _ hk,
        LazyHashMap.key_at_entries]

theorem LazyHashMap.lazily_load_key {m m' : LazyHashMap K V}
    {st : Storage} {k : K} {e : Entry V}
    (h : m.lazily_load hash encK decV st k = Except.ok (m', e)) :
    m'.key = m.key := by
  unfold LazyHashMap.lazily_load at h
  cases hf : assocFind m.cached_entries k with
  | some e0 =>
    rw [hf] at h
    simp only [Except.ok.injEq, Prod.mk.injEq] at h
    rw [← h.1]
  | none =>
    rw [hf] at h
    cases hl : m.load_value hash encK decV st k with
    | error err => rw [hl] at h; simp [Except.map] at h
    | ok value =>
      rw [hl] at h
      simp only [Except.map, Except.ok.injEq, Prod.mk.injEq] at h
      rw [← h.1]
      exact LazyHashMap.key_at_key hash encK m k

theorem LazyHashMap.lazily_load_valueAt {m m' : LazyHashMap K V}
    {st : Storage} {k : K} {e : Entry V}
    (h : m.lazily_load hash encK decV st k = Except.ok (m', e)) :
    m.valueAt hash encK decV st k = Except.ok e.value := by
  unfold LazyHashMap.valueAt LazyHashMap.get
  rw [h]
  simp [Except.map]

theorem LazyHashMap.valueAt_congr {m m' : LazyHashMap K V}
    (st : Storage) (k : K)
    (hfind : assocFind m.cached_entries k = assocFind m'.cached_entries k)
    (hkey : m.key = m'.key) :
    m.valueAt hash encK decV st k = m'.valueAt hash encK decV st k := by
  unfold LazyHashMap.valueAt LazyHashMap.get LazyHashMap.lazily_load
  cases hf : assocFind m.cached_entries k with
  | some e => rw [hf] at hfind; rw [← hfind]; simp [Except.map]
  | none =>
    rw [hf] at hfind
    rw [← hfind,
      LazyHashMap.load_value_congr hash encK decV st k hkey]
    cases hl : m'.load_value hash encK decV st k <;> simp [Except.map]

theorem exceptBind_ok {ε α β : Type} (a : α) (f : α → Except ε β) :
    (Except.ok a : Except ε α) >>= f = f a := rfl

theorem exceptBind_error {ε α β : Type} (e : ε) (f : α → Except ε β) :
    (Except.error e : Except ε α) >>= f = Except.error e := rfl

theorem LazyHashMap.swap_eq {m : LazyHashMap K V} {st : Storage}
    {x y : K} (hxy : x ≠ y) {qA qB : LazyHashMap K V × Entry V}
    (hA : m.lazily_load hash encK decV st x = Except.ok qA)
    (hB : qA.1.lazily_load hash encK decV st y = Except.ok qB) :
    m.swap hash encK decV st x y =
      if qA.2.value.isNone && qB.2.value.isNone then Except.ok qB.1
      else
        Except.ok
          { qB.1 with
            cached_entries :=
              assocInsert
                (assocInsert qB.1.cached_entries x
                  ⟨qB.2.value, EntryState.Mutated⟩)
                y ⟨qA.2.value, EntryState.Mutated⟩ } := by
  unfold LazyHashMap.swap
  rw [if_neg hxy, hA, exceptBind_ok]
  simp only []
  rw [hB, exceptBind_ok]

end OpLemmas

/-! ### The concrete instantiation of the in-source tests:
`LazyHashMap<i32, u8, Blake2x256Hasher>` -/

/-- The `Blake2x256Hasher` capability. -/
def blake2 : Bytes → Bytes := Blake2b.blake2b256

/-- `LazyHashMap<i32, u8, Blake2x256Hasher>`. -/
abbrev IMap := LazyHashMap Int Nat

/-- `new()` at the test instantiation. -/
def newHmap : IMap := LazyHashMap.new

/-- `lazy(key)` at the test instantiation. -/
def lazyHmap (key : Bytes) : IMap := LazyHashMap.lazy key

/-- `key_at` at the test instantiation. -/
def keyAt (m : IMap) (k : Int) : Option Bytes × IMap :=
  LazyHashMap.key_at blake2 encI32 m k

/-- `get` at the test instantiation. -/
def getAt (m : IMap) (st : Storage) (k : Int) :
    Except Err (IMap × Option Nat) :=
  LazyHashMap.get blake2 encI32 decU8 m st k

/-- `put` at the test instantiation. -/
def putAt (m : IMap) (k : Int) (v : Option Nat) : IMap :=
  LazyHashMap.put m k v

/-- `put_get` at the test instantiation. -/
def putGetAt (m : IMap) (st : Storage) (k : Int) (v : Option Nat) :
    Except Err (IMap × Option Nat) :=
  LazyHashMap.put_get blake2 encI32 decU8 m st k v

/-- `swap` at the test instantiation. -/
def swapAt (m : IMap) (st : Storage) (x y : Int) : Except Err IMap :=
  LazyHashMap.swap blake2 encI32 decU8 m st x y

/-- `clear_packed_at` at the test instantiation. -/
def clearPackedAt (deep : Bool) (cpr : Nat → Bytes → Storage → Storage)
    (m : IMap) (st : Storage) (k : Int) :
    Except Err (IMap × Storage) :=
  LazyHashMap.clear_packed_at blake2 encI32 decU8 deep cpr m st k

/-- `push_spread` at the test instantiation. -/
def pushSpread (m : IMap) (offset_key : Bytes) (st : Storage) :
    Storage × IMap :=
  LazyHashMap.push_spread blake2 encI32 encU8 m offset_key st

/-- `pull_spread` at the test instantiation. -/
def pullSpread (offset_key : Bytes) : IMap :=
  LazyHashMap.pull_spread offset_key

/-- The root key `[0x42; 32]` of the in-source tests. -/
def key42 : Bytes := List.replicate 32 0x42

/-- The expected slot for root `[0x42; 32]` and user key `0_i32`
(`key_at_works`). -/
def slot42at0 : Bytes :=
  [0x67, 0x7E, 0xD3, 0xA4, 0x72, 0x2A, 0x83, 0x60,
   0x96, 0x65, 0x0E, 0xCD, 0x1F, 0x2C, 0xE8, 0x5D,
   0xBF, 0x7E, 0xC0, 0xFF, 0x16, 0x40, 0x8A, 0xD8,
   0x75, 0x88, 0xDE, 0x52, 0xF5, 0x8B, 0x99, 0xAF]

/-! ## Claims C1–C7 and C10 -/

/-- C1: for every bound `LazyHashMap` with root key `r` and user key
`k`, regardless of previous derivations (the map's hasher state is
arbitrary), the derived slot is `H("ink hashmap" ++ encode(r) ++
encode(k))`; re-deriving for the same pair yields identical bytes
because the hasher state is reset; with BLAKE2-256, root `[0x42; 32]`
and user key `0_i32` the slot is `677E…99AF`. -/
theorem lazy_hmap_slot_derivation {K V : Type} [LinearOrder K]
    (hash : Bytes → Bytes) (encK : K → Bytes)
    (m : LazyHashMap K V) (r : Bytes) (k : K) (h : m.key = some r) :
    (m.key_at hash encK k).1 = some (hash (hashmapTag ++ r ++ encK k))
    ∧ ((m.key_at hash encK k).2.key_at hash encK k).1 =
        (m.key_at hash encK k).1
    ∧ (keyAt (lazyHmap key42) 0).1 = some slot42at0 := by
  refine ⟨?_, ?_, by rfl⟩
  · rw [LazyHashMap.key_at_fst, h]
    simp [hashmapKeyPair]
  · rw [LazyHashMap.key_at_fst, LazyHashMap.key_at_fst,
      LazyHashMap.key_at_key]

theorem lazy_hmap_slot_derivation_witness :
    (lazyHmap key42).key = some key42
    ∧ (((lazyHmap key42).key_at blake2 encI32 (0 : Int)).1 =
          some (blake2 (hashmapTag ++ key42 ++ encI32 0))
        ∧ (((lazyHmap key42).key_at blake2 encI32 (0 : Int)).2.key_at
              blake2 encI32 (0 : Int)).1 =
            ((lazyHmap key42).key_at blake2 encI32 (0 : Int)).1
        ∧ (keyAt (lazyHmap key42) 0).1 = some slot42at0) :=
  ⟨rfl, lazy_hmap_slot_derivation blake2 encI32 (lazyHmap key42) key42 0 rfl⟩

/-- C2: Scenario E — bind at root `[0x42; 32]`, populate
`{1 → Some('A'), 2 → Some('B'), 3 → None, 4 → None}` via `put_get`,
`push_spread`, then `pull_spread` a second instance at the same root:
its cache starts empty, the four `get`s return `Some('A')`,
`Some('B')`, `None`, `None`, and after each successful load the
corresponding cached entry has state `Preserved`. -/
theorem lazy_hmap_spread_roundtrip :
    (pullSpread key42).cached_entries = ([] : List (Int × Entry Nat))
    ∧ (do
        let q1 ← putGetAt (lazyHmap key42) [] 1 (some 65)
        let q2 ← putGetAt q1.1 [] 2 (some 66)
        let q3 ← putGetAt q2.1 [] 3 none
        let q4 ← putGetAt q3.1 [] 4 none
        let st := (pushSpread q4.1 key42 []).1
        let r1 ← getAt (pullSpread key42) st 1
        let r2 ← getAt r1.1 st 2
        let r3 ← getAt r2.1 st 3
        let r4 ← getAt r3.1 st 4
        pure (r1.2, r2.2, r3.2, r4.2,
          r1.1.cached_entries, r2.1.cached_entries,
          r3.1.cached_entries, r4.1.cached_entries) :
        Except Err _) =
      Except.ok (some 65, some 66, none, none,
        [(1, ⟨some 65, EntryState.Preserved⟩)],
        [(1, ⟨some 65, EntryState.Preserved⟩),
         (2, ⟨some 66, EntryState.Preserved⟩)],
        [(1, ⟨some 65, EntryState.Preserved⟩),
         (2, ⟨some 66, EntryState.Preserved⟩),
         (3, ⟨none, EntryState.Preserved⟩)],
        [(1, ⟨some 65, EntryState.Preserved⟩),
         (2, ⟨some 66, EntryState.Preserved⟩),
         (3, ⟨none, EntryState.Preserved⟩),
         (4, ⟨none, EntryState.Preserved⟩)]) :=
  ⟨rfl, by rfl⟩

/-- C3 counterexample: on a fresh map, `put_get(3, None)` leaves the
cached entry in state `Preserved`, not `Mutated` — refuting "after
`put_get(k, new_value)` the cached entry under `k` has state
`Mutated`" for the `None`-over-`None` case (this is exactly what the
in-source `put_get_works` test asserts). -/
theorem put_get_none_preserved_cex :
    (putGetAt newHmap [] 3 none).map
        (fun q => (q.2, assocFind q.1.cached_entries 3)) =
      Except.ok ((none : Option Nat),
        some (⟨none, EntryState.Preserved⟩ : Entry Nat))
    ∧ EntryState.Preserved ≠ EntryState.Mutated :=
  ⟨rfl, by decide⟩

/-- C3 amended: `Entry::put` always returns the old value; writing
`Some` always leaves the entry `Mutated`; writing `None` leaves it
`Mutated` only when the old value was `Some`, otherwise the state is
unchanged. Consequently after `put_get(k, new)` the cached entry is
`Mutated` whenever `new` or the returned old value is `Some`, and
keeps the lazily loaded entry's state when both are `None`. -/
theorem entry_put_state_spec {K V : Type} [LinearOrder K]
    (hash : Bytes → Bytes) (encK : K → Bytes) (decV : Bytes → Option V)
    (m m' : LazyHashMap K V) (st : Storage) (k : K)
    (newValue old : Option V)
    (h : m.put_get hash encK decV st k newValue = Except.ok (m', old)) :
    (∀ e : Entry V, ∀ nv, (e.put nv).1 = e.value)
    ∧ (newValue.isSome ∨ old.isSome →
        assocFind m'.cached_entries k =
          some ⟨newValue, EntryState.Mutated⟩)
    ∧ (newValue = none → old = none →
        ∀ q, m.lazily_load hash encK decV st k = Except.ok q →
          assocFind m'.cached_entries k = some ⟨none, q.2.state⟩) := by
  unfold LazyHashMap.put_get at h
  cases hl : m.lazily_load hash encK decV st k with
  | error err => rw [hl] at h; simp [Except.map] at h
  | ok q =>
    rw [hl] at h
    simp only [Except.map, Except.ok.injEq, Prod.mk.injEq] at h
    obtain ⟨hm', hold⟩ := h
    refine ⟨fun e nv => by cases nv <;> simp [Entry.put], ?_, ?_⟩
    · intro hsome
      rw [← hm']
      simp only []
      rw [assocFind_assocInsert_self]
      cases hnv : newValue with
      | some v => simp [Entry.put]
      | none =>
        rcases hsome with hs | hs
        · rw [hnv] at hs; simp [Option.isSome] at hs
        · rw [← hold, hnv] at hs
          simp only [Entry.put] at hs ⊢
          rw [if_pos hs]
    · intro hnv hold2 q' hq'
      injection hq' with hq'
      subst hq'
      rw [← hm', hnv]
      simp only []
      rw [assocFind_assocInsert_self]
      rw [← hold, hnv] at hold2
      simp only [Entry.put] at hold2 ⊢
      rw [hold2]
      simp [Option.isSome]

theorem entry_put_state_spec_witness :
    putGetAt newHmap [] 1 (some 65) =
      Except.ok
        ((⟨none, [(1, ⟨some 65, EntryState.Mutated⟩)], ⟨[]⟩⟩ : IMap),
         none)
    ∧ ((∀ e : Entry Nat, ∀ nv, (e.put nv).1 = e.value)
      ∧ ((some 65 : Option Nat).isSome ∨ (none : Option Nat).isSome →
          assocFind
            ((⟨none, [(1, ⟨some 65, EntryState.Mutated⟩)], ⟨[]⟩⟩ :
                IMap)).cached_entries 1 =
            some ⟨some 65, EntryState.Mutated⟩)
      ∧ ((some 65 : Option Nat) = none → (none : Option Nat) = none →
          ∀ q, newHmap.lazily_load blake2 encI32 decU8 [] 1 =
              Except.ok q →
            assocFind
              ((⟨none, [(1, ⟨some 65, EntryState.Mutated⟩)], ⟨[]⟩⟩ :
                  IMap)).cached_entries 1 =
              some ⟨none, q.2.state⟩)) :=
  ⟨rfl,
   entry_put_state_spec blake2 encI32 decU8 newHmap
     ⟨none, [(1, ⟨some 65, EntryState.Mutated⟩)], ⟨[]⟩⟩ [] 1
     (some 65) none rfl⟩

/-- C4 counterexample: `get(5)` on a map built by `new()` does not
panic — it succeeds, returning `None` and caching
`(None, Preserved)` (this is exactly what the in-source `get_works`
test asserts) — refuting "every operation that directly or indirectly
loads from the contract storage panics". -/
theorem unbound_get_no_panic_cex :
    getAt newHmap [] 5 =
      Except.ok
        ((⟨none, [(5, ⟨none, EntryState.Preserved⟩)], ⟨[]⟩⟩ : IMap),
         none) := rfl

/-- C4 amended: a map built by `new()` has root key `None`; `get(k)`
for an uncached key behaves as if the map were empty — it succeeds
with `None` and caches `(None, Preserved)` without touching storage —
while the operations that genuinely require a bound root, such as
`clear_packed_at`, panic (`UnboundMap`). -/
theorem unbound_map_behavior {K V : Type} [LinearOrder K]
    (hash : Bytes → Bytes) (encK : K → Bytes) (decV : Bytes → Option V)
    (deep : Bool) (cpr : V → Bytes → Storage → Storage)
    (m : LazyHashMap K V) (st : Storage) (k : K)
    (hkey : m.key = none)
    (hmiss : assocFind m.cached_entries k = none) :
    (LazyHashMap.new : LazyHashMap K V).key = none
    ∧ m.get hash encK decV st k =
        Except.ok
          ({ m with
              cached_entries :=
                assocInsert m.cached_entries k
                  ⟨none, EntryState.Preserved⟩ }, none)
    ∧ LazyHashMap.clear_packed_at hash encK decV deep cpr m st k =
        Except.error Err.unboundMap := by
  refine ⟨rfl, ?_, ?_⟩
  · simp [LazyHashMap.get, LazyHashMap.lazily_load, hmiss,
      LazyHashMap.load_value, LazyHashMap.key_at, hkey, Except.map]
  · simp [LazyHashMap.clear_packed_at, LazyHashMap.key_at, hkey]

theorem unbound_map_behavior_witness :
    newHmap.key = none
    ∧ assocFind newHmap.cached_entries 5 = none
    ∧ ((LazyHashMap.new : IMap).key = none
      ∧ newHmap.get blake2 encI32 decU8 [] 5 =
          Except.ok
            ({ newHmap with
                cached_entries :=
                  assocInsert newHmap.cached_entries 5
                    ⟨none, EntryState.Preserved⟩ }, none)
      ∧ LazyHashMap.clear_packed_at blake2 encI32 decU8 false
          (fun _ _ s => s) newHmap [] 5 =
          Except.error Err.unboundMap) :=
  ⟨rfl, rfl,
   unbound_map_behavior blake2 encI32 decU8 false (fun _ _ s => s)
     newHmap [] 5 rfl rfl⟩

/-- C5: `put(k, new)` unconditionally caches `Entry(new, Mutated)`
without loading from storage (it is storage-independent by
construction); after `put(k, Some(v))` a `get(k)` hits the cache and
returns `Some(v)` with the entry still `Mutated`; `put(k, None)`
caches `(None, Mutated)`. -/
theorem put_unconditional_mutated {K V : Type} [LinearOrder K]
    (hash : Bytes → Bytes) (encK : K → Bytes) (decV : Bytes → Option V)
    (m : LazyHashMap K V) (st : Storage) (k : K) (v : V) :
    (∀ newValue, (m.put k newValue).cached_entries =
        assocInsert m.cached_entries k ⟨newValue, EntryState.Mutated⟩)
    ∧ assocFind (m.put k (some v)).cached_entries k =
        some ⟨some v, EntryState.Mutated⟩
    ∧ (m.put k (some v)).get hash encK decV st k =
        Except.ok (m.put k (some v), some v)
    ∧ assocFind (m.put k none).cached_entries k =
        some ⟨none, EntryState.Mutated⟩ := by
  refine ⟨fun _ => rfl, assocFind_assocInsert_self _ _ _, ?_,
    assocFind_assocInsert_self _ _ _⟩
  unfold LazyHashMap.get
  rw [LazyHashMap.lazily_load_hit hash encK decV st
    (assocFind_assocInsert_self _ _ _)]
  simp [Except.map]

/-- C7: `clear_packed_at(k)` panics (`UnboundMap`) on an unbound map;
when `V` needs no deep clean-up it clears the derived host slot
directly — the result does not depend on the storage contents, i.e.
nothing is loaded, and the cache is left untouched; and in every
successful case a previously cached entry under `k` keeps its value
and state, so a later `get(k)` may still return the old value. -/
theorem clear_packed_at_frame {K V : Type} [LinearOrder K]
    (hash : Bytes → Bytes) (encK : K → Bytes) (decV : Bytes → Option V)
    (deep : Bool) (cpr : V → Bytes → Storage → Storage)
    (m : LazyHashMap K V) (st : Storage) (k : K) :
    (m.key = none →
      LazyHashMap.clear_packed_at hash encK decV deep cpr m st k =
        Except.error Err.unboundMap)
    ∧ (∀ r, m.key = some r →
        LazyHashMap.clear_packed_at hash encK decV false cpr m st k =
          Except.ok ((m.key_at hash encK k).2,
            Storage.clear st (hash (hashmapKeyPair r (encK k))))
        ∧ (m.key_at hash encK k).2.cached_entries = m.cached_entries)
    ∧ (∀ m' st' e,
        LazyHashMap.clear_packed_at hash encK decV deep cpr m st k =
          Except.ok (m', st') →
        assocFind m.cached_entries k = some e →
        assocFind m'.cached_entries k = some e) := by
  refine ⟨?_, ?_, ?_⟩
  · intro hkey
    simp [LazyHashMap.clear_packed_at, LazyHashMap.key_at, hkey]
  · intro r hkey
    constructor
    · simp [LazyHashMap.clear_packed_at, LazyHashMap.key_at,
        LazyHashMap.to_offset_key, HashBuilder.hash_encoded, hkey]
    · exact LazyHashMap.key_at_entries hash encK m k
  · intro m' st' e h hfind
    cases hkey : m.key with
    | none =>
      simp [LazyHashMap.clear_packed_at, LazyHashMap.key_at, hkey] at h
    | some r =>
      have hfind2 :
          assocFind (m.key_at hash encK k).2.cached_entries k = some e := by
        rw [LazyHashMap.key_at_entries]; exact hfind
      unfold LazyHashMap.clear_packed_at at h
      rw [LazyHashMap.key_at_fst, hkey] at h
      simp only [Option.map] at h
      cases deep with
      | false =>
        simp only [Bool.false_eq_true, if_false, Except.ok.injEq,
          Prod.mk.injEq] at h
        rw [← h.1, LazyHashMap.key_at_entries]
        exact hfind
      | true =>
        simp only [if_true] at h
        rw [show (m.key_at hash encK k).2.get hash encK decV st k =
            Except.ok ((m.key_at hash encK k).2, e.value) from by
          unfold LazyHashMap.get
          rw [LazyHashMap.lazily_load_hit hash encK decV st hfind2]
          simp [Except.map]] at h
        cases hv : e.value with
        | none => rw [hv] at h; simp at h
        | some v =>
          rw [hv] at h
          simp only [Except.ok.injEq, Prod.mk.injEq] at h
          rw [← h.1, LazyHashMap.key_at_entries]
          exact hfind

theorem clear_packed_at_frame_witness :
    (putAt (lazyHmap key42) 1 (some 65)).key = some key42
    ∧ (LazyHashMap.clear_packed_at blake2 encI32 decU8 false
          (fun _ _ s => s) (putAt (lazyHmap key42) 1 (some 65)) [] 1 =
        Except.ok
          (((putAt (lazyHmap key42) 1 (some 65)).key_at blake2 encI32 1).2,
            Storage.clear []
              (blake2 (hashmapKeyPair key42 (encI32 1))))
        ∧ ((putAt (lazyHmap key42) 1 (some 65)).key_at blake2
              encI32 1).2.cached_entries =
            (putAt (lazyHmap key42) 1 (some 65)).cached_entries) :=
  ⟨rfl,
   (clear_packed_at_frame blake2 encI32 decU8 false (fun _ _ s => s)
      (putAt (lazyHmap key42) 1 (some 65)) [] 1).2.1 key42 rfl⟩

/-- C10: on a bound map, when `V` requires deep clean-up,
`clear_packed_at(k)` first loads the value at `k` through `self.get`
— inserting it into the in-memory cache as a side effect — panicking
(`missingEntity`) when no value exists, and otherwise handing the
value and the derived slot to `clear_packed_root`; the
non-deep-clean-up path clears the slot directly, without loading and
never panicking for an absent value. -/
theorem clear_packed_at_deep_spec {K V : Type} [LinearOrder K]
    (hash : Bytes → Bytes) (encK : K → Bytes) (decV : Bytes → Option V)
    (cpr : V → Bytes → Storage → Storage)
    (m : LazyHashMap K V) (st : Storage) (k : K) :
    ∀ r, m.key = some r →
      ((∀ m2 v,
          (m.key_at hash encK k).2.get hash encK decV st k =
            Except.ok (m2, some v) →
          LazyHashMap.clear_packed_at hash encK decV true cpr m st k =
            Except.ok (m2, cpr v (hash (hashmapKeyPair r (encK k))) st)
          ∧ ∃ e, assocFind m2.cached_entries k = some e
              ∧ e.value = some v)
        ∧ (∀ m2,
            (m.key_at hash encK k).2.get hash encK decV st k =
              Except.ok (m2, none) →
            LazyHashMap.clear_packed_at hash encK decV true cpr m st k =
              Except.error Err.missingEntity)
        ∧ LazyHashMap.clear_packed_at hash encK decV false cpr m st k =
            Except.ok ((m.key_at hash encK k).2,
              Storage.clear st (hash (hashmapKeyPair r (encK k))))) := by
  intro r hkey
  refine ⟨?_, ?_, ?_⟩
  · intro m2 v hget
    constructor
    · unfold LazyHashMap.clear_packed_at
      rw [LazyHashMap.key_at_fst, hkey]
      simp only [Option.map, if_true]
      rw [hget]
    · unfold LazyHashMap.get at hget
      cases hl : (m.key_at hash encK k).2.lazily_load hash encK decV st k with
      | error err => rw [hl] at hget; simp [Except.map] at hget
      | ok q =>
        rw [hl] at hget
        simp only [Except.map, Except.ok.injEq, Prod.mk.injEq] at hget
        refine ⟨q.2, ?_, hget.2⟩
        rw [← hget.1]
        exact LazyHashMap.lazily_load_find hash encK decV hl
  · intro m2 hget
    unfold LazyHashMap.clear_packed_at
    rw [LazyHashMap.key_at_fst, hkey]
    simp only [Option.map, if_true]
    rw [hget]
  · unfold LazyHashMap.clear_packed_at
    rw [LazyHashMap.key_at_fst, hkey]
    simp

/-- C6: `swap(x, y)` is a no-op when `x = y`; otherwise both entries
are loaded and, when both loaded values are `None`, the map after the
two loads is returned with no value or state changed; otherwise the
two values are exchanged and both entries are marked `Mutated`; and
performing `swap(x, y)` twice in a row restores the original
observable contents at every key. -/
theorem swap_spec {K V : Type} [LinearOrder K]
    (hash : Bytes → Bytes) (encK : K → Bytes) (decV : Bytes → Option V)
    (m : LazyHashMap K V) (st : Storage) (x y : K) :
    (x = y → m.swap hash encK decV st x y = Except.ok m)
    ∧ (x ≠ y → ∀ qA qB : LazyHashMap K V × Entry V,
        m.lazily_load hash encK decV st x = Except.ok qA →
        qA.1.lazily_load hash encK decV st y = Except.ok qB →
        (qA.2.value = none → qB.2.value = none →
          m.swap hash encK decV st x y = Except.ok qB.1)
        ∧ (¬(qA.2.value = none ∧ qB.2.value = none) →
          ∃ m', m.swap hash encK decV st x y = Except.ok m'
            ∧ assocFind m'.cached_entries x =
                some ⟨qB.2.value, EntryState.Mutated⟩
            ∧ assocFind m'.cached_entries y =
                some ⟨qA.2.value, EntryState.Mutated⟩))
    ∧ (∀ m1 m2,
        m.swap hash encK decV st x y = Except.ok m1 →
        m1.swap hash encK decV st x y = Except.ok m2 →
        ∀ k, m2.valueAt hash encK decV st k =
          m.valueAt hash encK decV st k) := by
  refine ⟨?_, ?_, ?_⟩
  · intro h
    unfold LazyHashMap.swap
    rw [if_pos h]
  · intro hxy qA qB hA hB
    constructor
    · intro hqa hqb
      rw [LazyHashMap.swap_eq hash encK decV hxy hA hB, hqa, hqb]
      simp
    · intro hne
      have hc : (qA.2.value.isNone && qB.2.value.isNone) = false := by
        cases ha : qA.2.value with
        | none =>
          cases hb : qB.2.value with
          | none => exact absurd ⟨ha, hb⟩ hne
          | some v => simp
        | some v => simp
      refine ⟨{ qB.1 with
          cached_entries :=
            assocInsert
              (assocInsert qB.1.cached_entries x
                ⟨qB.2.value, EntryState.Mutated⟩)
              y ⟨qA.2.value, EntryState.Mutated⟩ }, ?_, ?_, ?_⟩
      · rw [LazyHashMap.swap_eq hash encK decV hxy hA hB, hc]
        simp
      · rw [assocFind_assocInsert_ne _ _ _ _ hxy,
          assocFind_assocInsert_self]
      · rw [assocFind_assocInsert_self]
  · intro m1 m2 hs1 hs2 k
    by_cases hxy : x = y
    · have e1 : m.swap hash encK decV st x y = Except.ok m := by
        unfold LazyHashMap.swap
        rw [if_pos hxy]
      rw [e1] at hs1
      injection hs1 with hs1
      subst hs1
      rw [e1] at hs2
      injection hs2 with hs2
      subst hs2
      rfl
    · cases hA : m.lazily_load hash encK decV st x with
      | error err =>
        unfold LazyHashMap.swap at hs1
        rw [if_neg hxy, hA, exceptBind_error] at hs1
        exact Except.noConfusion hs1
      | ok qA =>
        cases hB : qA.1.lazily_load hash encK decV st y with
        | error err =>
          unfold LazyHashMap.swap at hs1
          rw [if_neg hxy, hA, exceptBind_ok] at hs1
          simp only [] at hs1
          rw [hB, exceptBind_error] at hs1
          exact Except.noConfusion hs1
        | ok qB =>
          rw [LazyHashMap.swap_eq hash encK decV hxy hA hB] at hs1
          have ffA : assocFind qA.1.cached_entries x = some qA.2 :=
            LazyHashMap.lazily_load_find hash encK decV hA
          have ffB : assocFind qB.1.cached_entries y = some qB.2 :=
            LazyHashMap.lazily_load_find hash encK decV hB
          have ffBx : assocFind qB.1.cached_entries x = some qA.2 := by
            rw [LazyHashMap.lazily_load_frame hash encK decV hB x hxy]
            exact ffA
          have keyA : qA.1.key = m.key :=
            LazyHashMap.lazily_load_key hash encK decV hA
          have keyB : qB.1.key = qA.1.key :=
            LazyHashMap.lazily_load_key hash encK decV hB
          have vA : m.valueAt hash encK decV st x = Except.ok qA.2.value :=
            LazyHashMap.lazily_load_valueAt hash encK decV hA
          have vY : m.valueAt hash encK decV st y =
              Except.ok qB.2.value := by
            rw [LazyHashMap.valueAt_congr hash encK decV st y
              (LazyHashMap.lazily_load_frame hash encK decV hA y
                (Ne.symm hxy)).symm keyA.symm]
            exact LazyHashMap.lazily_load_valueAt hash encK decV hB
          have frameB : ∀ k', k' ≠ x → k' ≠ y →
              assocFind qB.1.cached_entries k' =
                assocFind m.cached_entries k' := by
            intro k' hkx hky
            rw [LazyHashMap.lazily_load_frame hash encK decV hB k' hky,
              LazyHashMap.lazily_load_frame hash encK decV hA k' hkx]
          cases hc : (qA.2.value.isNone && qB.2.value.isNone) with
          | true =>
            rw [hc] at hs1
            simp only [if_true] at hs1
            injection hs1 with hs1
            have findm1x : assocFind m1.cached_entries x = some qA.2 := by
              rw [← hs1]
              exact ffBx
            have findm1y : assocFind m1.cached_entries y = some qB.2 := by
              rw [← hs1]
              exact ffB
            have hA2 : m1.lazily_load hash encK decV st x =
                Except.ok (m1, qA.2) :=
              LazyHashMap.lazily_load_hit hash encK decV st findm1x
            have hB2 : m1.lazily_load hash encK decV st y =
                Except.ok (m1, qB.2) :=
              LazyHashMap.lazily_load_hit hash encK decV st findm1y
            rw [LazyHashMap.swap_eq hash encK decV hxy hA2 hB2] at hs2
            dsimp only [] at hs2
            rw [hc] at hs2
            simp only [if_true] at hs2
            injection hs2 with hs2
            rw [← hs2, ← hs1]
            by_cases hkx : k = x
            · rw [hkx, vA]
              exact LazyHashMap.lazily_load_valueAt hash encK decV
                (LazyHashMap.lazily_load_hit hash encK decV st ffBx)
            · by_cases hky : k = y
              · rw [hky, vY]
                exact LazyHashMap.lazily_load_valueAt hash encK decV
                  (LazyHashMap.lazily_load_hit hash encK decV st ffB)
              · exact LazyHashMap.valueAt_congr hash encK decV st k
                  (frameB k hkx hky) (keyB.trans keyA)
          | false =>
            rw [hc] at hs1
            simp only [Bool.false_eq_true, if_false] at hs1
            injection hs1 with hs1
            have findM1x : assocFind m1.cached_entries x =
                some ⟨qB.2.value, EntryState.Mutated⟩ := by
              rw [← hs1]
              show assocFind
                  (assocInsert
                    (assocInsert qB.1.cached_entries x
                      ⟨qB.2.value, EntryState.Mutated⟩)
                    y ⟨qA.2.value, EntryState.Mutated⟩) x = _
              rw [assocFind_assocInsert_ne _ _ _ _ hxy,
                assocFind_assocInsert_self]
            have findM1y : assocFind m1.cached_entries y =
                some ⟨qA.2.value, EntryState.Mutated⟩ := by
              rw [← hs1]
              exact assocFind_assocInsert_self _ _ _
            have keyM1 : m1.key = qB.1.key := by
              rw [← hs1]
            have hA2 : m1.lazily_load hash encK decV st x =
                Except.ok (m1, ⟨qB.2.value, EntryState.Mutated⟩) :=
              LazyHashMap.lazily_load_hit hash encK decV st findM1x
            have hB2 : m1.lazily_load hash encK decV st y =
                Except.ok (m1, ⟨qA.2.value, EntryState.Mutated⟩) :=
              LazyHashMap.lazily_load_hit hash encK decV st findM1y
            rw [LazyHashMap.swap_eq hash encK decV hxy hA2 hB2] at hs2
            dsimp only [] at hs2
            have hc2 : (qB.2.value.isNone && qA.2.value.isNone) = false := by
              rw [Bool.and_comm]
              exact hc
            rw [hc2] at hs2
            simp only [Bool.false_eq_true, if_false] at hs2
            injection hs2 with hs2
            have findM2x : assocFind m2.cached_entries x =
                some ⟨qA.2.value, EntryState.Mutated⟩ := by
              rw [← hs2]
              show assocFind
                  (assocInsert
                    (assocInsert m1.cached_entries x
                      ⟨qA.2.value, EntryState.Mutated⟩)
                    y ⟨qB.2.value, EntryState.Mutated⟩) x = _
              rw [assocFind_assocInsert_ne _ _ _ _ hxy,
                assocFind_assocInsert_self]
            have findM2y : assocFind m2.cached_entries y =
                some ⟨qB.2.value, EntryState.Mutated⟩ := by
              rw [← hs2]
              exact assocFind_assocInsert_self _ _ _
            have keyM2 : m2.key = m1.key := by
              rw [← hs2]
            by_cases hkx : k = x
            · rw [hkx, vA]
              have hv : LazyHashMap.valueAt hash encK decV m2 st x =
                  Except.ok (⟨qA.2.value, EntryState.Mutated⟩ :
                    Entry V).value :=
                LazyHashMap.lazily_load_valueAt hash encK decV
                  (LazyHashMap.lazily_load_hit hash encK decV st findM2x)
              exact hv
            · by_cases hky : k = y
              · rw [hky, vY]
                have hv : LazyHashMap.valueAt hash encK decV m2 st y =
                    Except.ok (⟨qB.2.value, EntryState.Mutated⟩ :
                      Entry V).value :=
                  LazyHashMap.lazily_load_valueAt hash encK decV
                    (LazyHashMap.lazily_load_hit hash encK decV st findM2y)
                exact hv
              · refine LazyHashMap.valueAt_congr hash encK decV st k ?_ ?_
                · rw [← hs2]
                  show assocFind
                      (assocInsert
                        (assocInsert m1.cached_entries x
                          ⟨qA.2.value, EntryState.Mutated⟩)
                        y ⟨qB.2.value, EntryState.Mutated⟩) k =
                    assocFind m.cached_entries k
                  rw [assocFind_assocInsert_ne _ _ _ _ hky,
                    assocFind_assocInsert_ne _ _ _ _ hkx, ← hs1]
                  show assocFind
                      (assocInsert
                        (assocInsert qB.1.cached_entries x
                          ⟨qB.2.value, EntryState.Mutated⟩)
                        y ⟨qA.2.value, EntryState.Mutated⟩) k = _
                  rw [assocFind_assocInsert_ne _ _ _ _ hky,
                    assocFind_assocInsert_ne _ _ _ _ hkx]
                  exact frameB k hkx hky
                · rw [keyM2, keyM1, keyB, keyA]

/-- Witness input for C6: the map after the first swap of two
uncached keys on a fresh map (both loads yield `None`). -/
def cw6m1 : IMap :=
  ⟨none, [(1, ⟨none, EntryState.Preserved⟩),
          (2, ⟨none, EntryState.Preserved⟩)], ⟨[]⟩⟩

theorem swap_spec_witness :
    swapAt newHmap [] 1 2 = Except.ok cw6m1
    ∧ swapAt cw6m1 [] 1 2 = Except.ok cw6m1
    ∧ ∀ k, LazyHashMap.valueAt blake2 encI32 decU8 cw6m1 [] k =
        LazyHashMap.valueAt blake2 encI32 decU8 newHmap [] k :=
  ⟨rfl, rfl,
   (swap_spec blake2 encI32 decU8 newHmap [] 1 2).2.2 cw6m1 cw6m1
     rfl rfl⟩

/-- Witness input for C10: a bound map with `1 ↦ Some(65)` cached,
and a `clear_packed_root` model that clears the top-level slot. -/
def cwDeepCpr : Nat → Bytes → Storage → Storage :=
  fun _ root s => Storage.clear s root

/-- Witness input for C10: the bound, populated map. -/
def cwDeepMap : IMap := putAt (lazyHmap key42) 1 (some 65)

theorem clear_packed_at_deep_spec_witness :
    cwDeepMap.key = some key42
    ∧ (cwDeepMap.key_at blake2 encI32 1).2.get blake2 encI32 decU8 [] 1 =
        Except.ok ((cwDeepMap.key_at blake2 encI32 1).2, some 65)
    ∧ (LazyHashMap.clear_packed_at blake2 encI32 decU8 true cwDeepCpr
          cwDeepMap [] 1 =
        Except.ok ((cwDeepMap.key_at blake2 encI32 1).2,
          cwDeepCpr 65 (blake2 (hashmapKeyPair key42 (encI32 1))) [])
      ∧ ∃ e, assocFind
            ((cwDeepMap.key_at blake2 encI32 1).2).cached_entries 1 =
            some e
          ∧ e.value = some 65) :=
  ⟨rfl, rfl,
   ((clear_packed_at_deep_spec blake2 encI32 decU8 cwDeepCpr cwDeepMap
       [] 1) key42 rfl).1 ((cwDeepMap.key_at blake2 encI32 1).2) 65 rfl⟩

end Ink

/-! ## Big-endian byte encodings of naturals

Infrastructure for the 256-bit `Key` arithmetic of
`src/pdsl_core/src/storage/key.rs`. -/

/-- The `n` little-endian bytes of `x` (mod `256 ^ n`). -/
def natToLE : Nat → Nat → List Nat
  | 0, _ => []
  | n + 1, x => x % 256 :: natToLE n (x / 256)

/-- Interpret a byte list as a big-endian natural number. -/
def beToNat (bs : Bytes) : Nat := Blake2b.leToNat bs.reverse

/-- The `n` big-endian bytes of `x` (mod `256 ^ n`) — the shape of
`uN::to_be_bytes` and of `Key`'s byte array. -/
def natToBE (n x : Nat) : Bytes := (natToLE n x).reverse

theorem leToNat_natToLE (n x : Nat) :
    Blake2b.leToNat (natToLE n x) = x % 256 ^ n := by
  induction n generalizing x with
  | zero => simp [natToLE, Blake2b.leToNat, Nat.mod_one]
  | succ n ih =>
    simp only [natToLE, Blake2b.leToNat, ih]
    rw [pow_succ, mul_comm (256 ^ n) 256, Nat.mod_mul]

theorem natToLE_length (n x : Nat) : (natToLE n x).length = n := by
  induction n generalizing x with
  | zero => rfl
  | succ n ih => simp [natToLE, ih]

theorem natToLE_lt (n x : Nat) : ∀ b ∈ natToLE n x, b < 256 := by
  induction n generalizing x with
  | zero => simp [natToLE]
  | succ n ih =>
    intro b hb
    simp only [natToLE, List.mem_cons] at hb
    rcases hb with hb | hb
    · subst hb; exact Nat.mod_lt _ (by norm_num)
    · exact ih (x / 256) b hb

theorem natToLE_append (m n x : Nat) :
    natToLE (m + n) x = natToLE m x ++ natToLE n (x / 256 ^ m) := by
  induction m generalizing x with
  | zero => simp [natToLE]
  | succ m ih =>
    rw [Nat.succ_add]
    simp only [natToLE, ih, List.cons_append]
    rw [Nat.div_div_eq_div_mul, ← pow_succ']

theorem natToLE_leToNat (l : Bytes) (h : ∀ b ∈ l, b < 256) :
    natToLE l.length (Blake2b.leToNat l) = l := by
  induction l with
  | nil => rfl
  | cons b t ih =>
    have hb : b < 256 := h b (List.mem_cons_self b t)
    simp only [List.length_cons, natToLE, Blake2b.leToNat]
    rw [Nat.add_mul_mod_self_left, Nat.mod_eq_of_lt hb,
      Nat.add_mul_div_left _ _ (by norm_num : (0 : Nat) < 256),
      Nat.div_eq_of_lt hb, Nat.zero_add,
      ih fun b hb => h b (List.mem_cons_of_mem _ hb)]

theorem natToLE_allZero (n y : Nat) :
    (∀ b ∈ natToLE n y, b = 0) ↔ y % 256 ^ n = 0 := by
  induction n generalizing y with
  | zero => simp [natToLE, Nat.mod_one]
  | succ n ih =>
    simp only [natToLE, List.mem_cons, pow_succ, mul_comm (256 ^ n) 256,
      Nat.mod_mul]
    constructor
    · intro h
      rw [(h _ (Or.inl rfl) : y % 256 = 0),
        ((ih (y / 256)).1 fun b hb => h b (Or.inr hb))]
    · intro h b hb
      have h1 : y % 256 = 0 ∧ 256 * (y / 256 % 256 ^ n) = 0 :=
        Nat.add_eq_zero.mp h
      rcases hb with hb | hb
      · rw [hb]; exact h1.1
      · exact (ih (y / 256)).2 (by omega) b hb

theorem leToNat_lt (l : Bytes) (h : ∀ b ∈ l, b < 256) :
    Blake2b.leToNat l < 256 ^ l.length := by
  induction l with
  | nil => simp [Blake2b.leToNat]
  | cons b t ih =>
    have hb : b < 256 := h b (List.mem_cons_self b t)
    have ht := ih fun b hb => h b (List.mem_cons_of_mem _ hb)
    simp only [Blake2b.leToNat, List.length_cons, pow_succ,
      mul_comm (256 ^ t.length) 256]
    omega

theorem beToNat_natToBE (n x : Nat) : beToNat (natToBE n x) = x % 256 ^ n := by
  simp [beToNat, natToBE, leToNat_natToLE]

theorem natToBE_length (n x : Nat) : (natToBE n x).length = n := by
  simp [natToBE, natToLE_length]

theorem natToBE_lt (n x : Nat) : ∀ b ∈ natToBE n x, b < 256 := by
  intro b hb
  exact natToLE_lt n x b (List.mem_reverse.mp hb)

theorem natToBE_beToNat (l : Bytes) (n : Nat) (hlen : l.length = n)
    (h : ∀ b ∈ l, b < 256) : natToBE n (beToNat l) = l := by
  subst hlen
  rw [natToBE, beToNat, ← List.length_reverse l,
    natToLE_leToNat l.reverse fun b hb => h b (List.mem_reverse.mp hb),
    List.reverse_reverse]

theorem beToNat_lt (l : Bytes) (h : ∀ b ∈ l, b < 256) :
    beToNat l < 256 ^ l.length := by
  rw [beToNat, ← List.length_reverse l]
  exact leToNat_lt l.reverse fun b hb => h b (List.mem_reverse.mp hb)

/-! ## Key and KeyDiff (`src/pdsl_core/src/storage/key.rs`) -/

namespace Pdsl

/-- `Key`: a typeless 32-byte pointer into contract storage. -/
structure Key where
  bytes : Bytes
  deriving DecidableEq, Repr

/-- `KeyDiff`: the difference between two keys, 32 bytes. -/
structure KeyDiff where
  bytes : Bytes
  deriving DecidableEq, Repr

/-- Modelled from the spec (§4.1): `byte_utils::bytes_add_bytes` —
big-endian byte-wise addition of a right-aligned operand, acting as
the ring `2 ^ 256`; the returned flag observes overflow past the
maximum (`byte_utils` is not among the sources). -/
def bytes_add_bytes (lhs rhs : Bytes) : Bytes × Bool :=
  (natToBE 32 ((beToNat lhs + beToNat rhs) % 256 ^ 32),
   decide (256 ^ 32 ≤ beToNat lhs + beToNat rhs))

/-- Modelled from the spec (§4.1): `byte_utils::bytes_sub_bytes` —
big-endian byte-wise subtraction of a right-aligned operand on the
ring `2 ^ 256`; the flag observes wraparound past zero. -/
def bytes_sub_bytes (lhs rhs : Bytes) : Bytes × Bool :=
  (natToBE 32
    ((beToNat lhs + (256 ^ 32 - beToNat rhs % 256 ^ 32)) % 256 ^ 32),
   decide (beToNat lhs < beToNat rhs))

/-- Modelled from the spec (§4.2 of the data model): two's-complement
negation of a 32-byte string. -/
def negate_bytes (bs : Bytes) : Bytes :=
  natToBE 32 ((256 ^ 32 - beToNat bs % 256 ^ 32) % 256 ^ 32)

/-- `Key + u32` (`impl Add<u32> for Key`): `bytes_add_bytes` with the
4 big-endian bytes of the operand. -/
def Key.add_u32 (k : Key) (n : Nat) : Key :=
  ⟨(bytes_add_bytes k.bytes (natToBE 4 n)).1⟩

/-- `Key - u32` (`impl Sub<u32> for Key`). -/
def Key.sub_u32 (k : Key) (n : Nat) : Key :=
  ⟨(bytes_sub_bytes k.bytes (natToBE 4 n)).1⟩

/-- `Key + u64`. -/
def Key.add_u64 (k : Key) (n : Nat) : Key :=
  ⟨(bytes_add_bytes k.bytes (natToBE 8 n)).1⟩

/-- `Key - u64`. -/
def Key.sub_u64 (k : Key) (n : Nat) : Key :=
  ⟨(bytes_sub_bytes k.bytes (natToBE 8 n)).1⟩

/-- `Key + u128`. -/
def Key.add_u128 (k : Key) (n : Nat) : Key :=
  ⟨(bytes_add_bytes k.bytes (natToBE 16 n)).1⟩

/-- `Key - u128`. -/
def Key.sub_u128 (k : Key) (n : Nat) : Key :=
  ⟨(bytes_sub_bytes k.bytes (natToBE 16 n)).1⟩

/-- `Key - Key → KeyDiff` (`impl Sub for Key`): negate the
right-hand side byte-wise, then add. -/
def Key.sub (a b : Key) : KeyDiff :=
  ⟨(bytes_add_bytes a.bytes (negate_bytes b.bytes)).1⟩

/-- `KeyDiff::try_to_u32`: `None` when any byte above the low 4 is
nonzero; otherwise the big-endian value of the low 4 bytes. -/
def KeyDiff.try_to_u32 (d : KeyDiff) : Option Nat :=
  if (d.bytes.take (32 - 4)).any (fun b => b != 0) then none
  else some (beToNat (d.bytes.drop (32 - 4)))

/-- `KeyDiff::try_to_u64`. -/
def KeyDiff.try_to_u64 (d : KeyDiff) : Option Nat :=
  if (d.bytes.take (32 - 8)).any (fun b => b != 0) then none
  else some (beToNat (d.bytes.drop (32 - 8)))

/-- `KeyDiff::try_to_u128`. -/
def KeyDiff.try_to_u128 (d : KeyDiff) : Option Nat :=
  if (d.bytes.take (32 - 16)).any (fun b => b != 0) then none
  else some (beToNat (d.bytes.drop (32 - 16)))

theorem natToBE_allZero (n y : Nat) :
    (∀ b ∈ natToBE n y, b = 0) ↔ y % 256 ^ n = 0 := by
  rw [← natToLE_allZero]
  unfold natToBE
  constructor <;> intro h b hb
  · exact h b (List.mem_reverse.mpr hb)
  · exact h b (List.mem_reverse.mp hb)

theorem natToBE_split32 (u x : Nat) (hu : u ≤ 32) :
    natToBE 32 x = natToBE (32 - u) (x / 256 ^ u) ++ natToBE u x := by
  conv_lhs =>
    rw [show (32 : Nat) = u + (32 - u) from (Nat.add_sub_cancel' hu).symm]
  rw [natToBE, natToLE_append, List.reverse_append]
  rfl

/-- Characterization of the `try_to_uN` body: for a well-formed
32-byte difference it succeeds iff the value fits in `N` bits, in
which case it returns exactly the value. -/
theorem tryTo_char (u : Nat) (hu : u ≤ 32) (d : Bytes)
    (hlen : d.length = 32) (hb : ∀ b ∈ d, b < 256) :
    (if (d.take (32 - u)).any (fun b => b != 0) then (none : Option Nat)
     else some (beToNat (d.drop (32 - u)))) =
    if beToNat d < 256 ^ u then some (beToNat d) else none := by
  have hDlt : beToNat d < 256 ^ 32 := by
    have h := beToNat_lt d hb
    rwa [hlen] at h
  have hdiv : beToNat d / 256 ^ u < 256 ^ (32 - u) := by
    rw [Nat.div_lt_iff_lt_mul (pow_pos (by norm_num) u)]
    calc beToNat d < 256 ^ 32 := hDlt
    _ = 256 ^ (32 - u) * 256 ^ u := by
        rw [← pow_add, Nat.sub_add_cancel hu]
  have hd : d = natToBE (32 - u) (beToNat d / 256 ^ u)
      ++ natToBE u (beToNat d) := by
    conv_lhs => rw [← natToBE_beToNat d 32 hlen hb]
    exact natToBE_split32 u (beToNat d) hu
  have htake : d.take (32 - u) = natToBE (32 - u) (beToNat d / 256 ^ u) := by
    conv_lhs => rw [hd]
    exact List.take_left' (natToBE_length _ _)
  have hdrop : d.drop (32 - u) = natToBE u (beToNat d) := by
    conv_lhs => rw [hd]
    exact List.drop_left' (natToBE_length _ _)
  have hany : ((d.take (32 - u)).any (fun b => b != 0) = false) ↔
      beToNat d < 256 ^ u := by
    rw [htake]
    have h1 : ((natToBE (32 - u) (beToNat d / 256 ^ u)).any
        (fun b => b != 0) = false) ↔
        ∀ b ∈ natToBE (32 - u) (beToNat d / 256 ^ u), b = 0 := by
      simp [List.any_eq_true]
    rw [h1, natToBE_allZero, Nat.mod_eq_of_lt hdiv,
      Nat.div_eq_zero_iff (pow_pos (by norm_num) u)]
  by_cases hlt : beToNat d < 256 ^ u
  · rw [if_pos hlt, hany.mpr hlt]
    simp only [Bool.false_eq_true, if_false]
    rw [hdrop, beToNat_natToBE, Nat.mod_eq_of_lt hlt]
  · rw [if_neg hlt]
    cases hA : (d.take (32 - u)).any (fun b => b != 0) with
    | false => exact absurd (hany.mp hA) hlt
    | true => simp

/-- The add-then-subtract computations of C9, width-generic: `w` is
the byte width of the unsigned operand. -/
theorem key_ops_aux (w : Nat) (hw : w ≤ 32) (k : Key) (n : Nat)
    (hlen : k.bytes.length = 32) (hb : ∀ b ∈ k.bytes, b < 256)
    (hn : n < 256 ^ w) (hov : beToNat k.bytes + n < 256 ^ 32) :
    (bytes_sub_bytes (bytes_add_bytes k.bytes (natToBE w n)).1
        (natToBE w n)).1 = k.bytes
    ∧ (bytes_add_bytes (bytes_add_bytes k.bytes (natToBE w n)).1
        (negate_bytes k.bytes)).1 = natToBE 32 n := by
  have hAlt : beToNat k.bytes < 256 ^ 32 := by
    have h := beToNat_lt k.bytes hb
    rwa [hlen] at h
  have hn32 : n < 256 ^ 32 :=
    lt_of_lt_of_le hn (Nat.pow_le_pow_right (by norm_num) hw)
  have hnv : beToNat (natToBE w n) = n := by
    rw [beToNat_natToBE, Nat.mod_eq_of_lt hn]
  have hadd : (bytes_add_bytes k.bytes (natToBE w n)).1 =
      natToBE 32 (beToNat k.bytes + n) := by
    unfold bytes_add_bytes
    rw [hnv, Nat.mod_eq_of_lt hov]
  have haddval : beToNat (natToBE 32 (beToNat k.bytes + n)) =
      beToNat k.bytes + n := by
    rw [beToNat_natToBE, Nat.mod_eq_of_lt hov]
  constructor
  · rw [hadd]
    unfold bytes_sub_bytes
    rw [haddval, hnv, Nat.mod_eq_of_lt hn32]
    have h1 : beToNat k.bytes + n + (256 ^ 32 - n) =
        beToNat k.bytes + 256 ^ 32 := by omega
    rw [h1, Nat.add_mod_right, Nat.mod_eq_of_lt hAlt]
    exact natToBE_beToNat k.bytes 32 hlen hb
  · rw [hadd]
    unfold bytes_add_bytes negate_bytes
    rw [haddval, Nat.mod_eq_of_lt hAlt, beToNat_natToBE,
      Nat.mod_mod_of_dvd _ dvd_rfl]
    have h2 : (beToNat k.bytes + n +
        (256 ^ 32 - beToNat k.bytes) % 256 ^ 32) % 256 ^ 32 = n := by
      rcases Nat.eq_zero_or_pos (beToNat k.bytes) with hA0 | hApos
      · rw [hA0, Nat.sub_zero, Nat.mod_self, Nat.zero_add, Nat.add_zero,
          Nat.mod_eq_of_lt hn32]
      · rw [Nat.mod_eq_of_lt
          (by omega : 256 ^ 32 - beToNat k.bytes < 256 ^ 32)]
        have h3 : beToNat k.bytes + n + (256 ^ 32 - beToNat k.bytes) =
            n + 256 ^ 32 := by omega
        rw [h3, Nat.add_mod_right, Nat.mod_eq_of_lt hn32]
    rw [h2]

/-- The C9 computations with the `Key`/`KeyDiff` constructors applied,
width-generic. -/
theorem key_ops_aux2 (w : Nat) (hw : w ≤ 32) (k : Key) (n : Nat)
    (hlen : k.bytes.length = 32) (hb : ∀ b ∈ k.bytes, b < 256)
    (hn : n < 256 ^ w) (hov : beToNat k.bytes + n < 256 ^ 32) :
    (⟨(bytes_sub_bytes (bytes_add_bytes k.bytes (natToBE w n)).1
        (natToBE w n)).1⟩ : Key) = k
    ∧ (⟨(bytes_add_bytes (bytes_add_bytes k.bytes (natToBE w n)).1
        (negate_bytes k.bytes)).1⟩ : KeyDiff) = ⟨natToBE 32 n⟩
    ∧ (if ((natToBE 32 n).take (32 - w)).any (fun b => b != 0) then none
        else some (beToNat ((natToBE 32 n).drop (32 - w)))) = some n := by
  obtain ⟨h1, h2⟩ := key_ops_aux w hw k n hlen hb hn hov
  have hn32 : n < 256 ^ 32 :=
    lt_of_lt_of_le hn (Nat.pow_le_pow_right (by norm_num) hw)
  refine ⟨by rw [h1], by rw [h2], ?_⟩
  rw [tryTo_char w hw _ (natToBE_length 32 n) (natToBE_lt 32 n),
    beToNat_natToBE, Nat.mod_eq_of_lt hn32, if_pos hn]

/-- C9: for every well-formed 32-byte `Key` `k` and every `n` that
fits the operand width, when `k + n` does not overflow,
`(k + n) - n = k` and `(k + n) - k = KeyDiff(n)`, for the u32, u64 and
u128 operand widths; and for every well-formed `KeyDiff`,
`try_to_u32/u64/u128` succeeds iff the value fits (all bytes above the
low 4/8/16 are zero), returning exactly the contained value. -/
theorem key_arithmetic_spec (k : Key) (n : Nat)
    (hlen : k.bytes.length = 32) (hb : ∀ b ∈ k.bytes, b < 256) :
    (n < 2 ^ 32 → beToNat k.bytes + n < 2 ^ 256 →
      (k.add_u32 n).sub_u32 n = k
      ∧ (k.add_u32 n).sub k = ⟨natToBE 32 n⟩
      ∧ ((k.add_u32 n).sub k).try_to_u32 = some n)
    ∧ (n < 2 ^ 64 → beToNat k.bytes + n < 2 ^ 256 →
      (k.add_u64 n).sub_u64 n = k
      ∧ (k.add_u64 n).sub k = ⟨natToBE 32 n⟩
      ∧ ((k.add_u64 n).sub k).try_to_u64 = some n)
    ∧ (n < 2 ^ 128 → beToNat k.bytes + n < 2 ^ 256 →
      (k.add_u128 n).sub_u128 n = k
      ∧ (k.add_u128 n).sub k = ⟨natToBE 32 n⟩
      ∧ ((k.add_u128 n).sub k).try_to_u128 = some n)
    ∧ (∀ d : KeyDiff, d.bytes.length = 32 → (∀ b ∈ d.bytes, b < 256) →
        d.try_to_u32 =
          (if beToNat d.bytes < 2 ^ 32 then some (beToNat d.bytes) else none)
        ∧ d.try_to_u64 =
          (if beToNat d.bytes < 2 ^ 64 then some (beToNat d.bytes) else none)
        ∧ d.try_to_u128 =
          (if beToNat d.bytes < 2 ^ 128 then some (beToNat d.bytes)
            else none)) := by
  have e32 : (2 : Nat) ^ 32 = 256 ^ 4 := by norm_num
  have e64 : (2 : Nat) ^ 64 = 256 ^ 8 := by norm_num
  have e128 : (2 : Nat) ^ 128 = 256 ^ 16 := by norm_num
  have e256 : (2 : Nat) ^ 256 = 256 ^ 32 := by norm_num
  refine ⟨fun hn hov => ?_, fun hn hov => ?_, fun hn hov => ?_,
    fun d hdl hdb => ?_⟩
  · obtain ⟨h1, h2, h3⟩ :=
      key_ops_aux2 4 (by norm_num) k n hlen hb (e32 ▸ hn) (e256 ▸ hov)
    have h2' : (k.add_u32 n).sub k = ⟨natToBE 32 n⟩ := h2
    refine ⟨h1, h2', ?_⟩
    rw [h2']
    exact h3
  · obtain ⟨h1, h2, h3⟩ :=
      key_ops_aux2 8 (by norm_num) k n hlen hb (e64 ▸ hn) (e256 ▸ hov)
    have h2' : (k.add_u64 n).sub k = ⟨natToBE 32 n⟩ := h2
    refine ⟨h1, h2', ?_⟩
    rw [h2']
    exact h3
  · obtain ⟨h1, h2, h3⟩ :=
      key_ops_aux2 16 (by norm_num) k n hlen hb (e128 ▸ hn) (e256 ▸ hov)
    have h2' : (k.add_u128 n).sub k = ⟨natToBE 32 n⟩ := h2
    refine ⟨h1, h2', ?_⟩
    rw [h2']
    exact h3
  · refine ⟨?_, ?_, ?_⟩
    · show (if (d.bytes.take (32 - 4)).any (fun b => b != 0) then none
        else some (beToNat (d.bytes.drop (32 - 4)))) = _
      rw [tryTo_char 4 (by norm_num) d.bytes hdl hdb, ← e32]
    · show (if (d.bytes.take (32 - 8)).any (fun b => b != 0) then none
        else some (beToNat (d.bytes.drop (32 - 8)))) = _
      rw [tryTo_char 8 (by norm_num) d.bytes hdl hdb, ← e64]
    · show (if (d.bytes.take (32 - 16)).any (fun b => b != 0) then none
        else some (beToNat (d.bytes.drop (32 - 16)))) = _
      rw [tryTo_char 16 (by norm_num) d.bytes hdl hdb, ← e128]

/-- Witness input for C9. -/
def c9key : Key := ⟨natToBE 32 1000⟩

theorem key_arithmetic_spec_witness :
    (c9key.add_u32 7).sub_u32 7 = c9key
    ∧ (c9key.add_u32 7).sub c9key = ⟨natToBE 32 7⟩
    ∧ ((c9key.add_u32 7).sub c9key).try_to_u32 = some 7 :=
  (key_arithmetic_spec c9key 7 (by decide) (by decide)).1 (by decide)
    (by decide)

/-! ## SyncCell (`src/pdsl_core/src/storage/cell/sync_cell.rs`) -/

/-- Modelled from the spec: the host test environment for a single
slot (`TestEnv` with its `total_reads`/`total_writes` accounting is
not among the sources): the cell's slot content plus read and write
counters. -/
structure TestEnv (T : Type) where
  cell : Option T
  total_reads : Nat
  total_writes : Nat
  deriving DecidableEq, Repr

/-- Modelled from the spec (§4.3): `TypedCell::load` — one host read,
no caching. -/
def typedCellLoad {T : Type} (env : TestEnv T) : Option T × TestEnv T :=
  (env.cell, { env with total_reads := env.total_reads + 1 })

/-- Modelled from the spec (§4.3): `TypedCell::store` — one host
write. -/
def typedCellStore {T : Type} (env : TestEnv T) (v : T) : TestEnv T :=
  { env with cell := some v, total_writes := env.total_writes + 1 }

/-- The `SyncCell` cache states: `Desync` (in-memory unknown) or
`Sync` (synchronized with the slot). -/
inductive CacheEntry (T : Type) : Type
  | Desync : CacheEntry T
  | Sync : Option T → CacheEntry T
  deriving DecidableEq, Repr

/-- `SyncCell`: the single-slot cache over the typed cell (the
underlying key is implicit in the single-slot environment). -/
structure SyncCell (T : Type) where
  cache : CacheEntry T
  deriving DecidableEq, Repr

/-- `SyncCell::get`: `Desync` loads from the host and transitions the
cache to `Sync`; `Sync` returns the cached value with no host read. -/
def SyncCell.get {T : Type} (c : SyncCell T) (env : TestEnv T) :
    Option T × SyncCell T × TestEnv T :=
  match c.cache with
  | CacheEntry.Desync =>
    let p := typedCellLoad env
    (p.1, ⟨CacheEntry.Sync p.1⟩, p.2)
  | CacheEntry.Sync v => (v, c, env)

/-- `SyncCell::set`: write-through to the host, cache becomes
`Sync(Some v)`. -/
def SyncCell.set {T : Type} (c : SyncCell T) (env : TestEnv T) (v : T) :
    SyncCell T × TestEnv T :=
  (⟨CacheEntry.Sync (some v)⟩, typedCellStore env v)

/-- Iterated `set`, for counting host writes. -/
def SyncCell.setList {T : Type} (c : SyncCell T) (env : TestEnv T) :
    List T → SyncCell T × TestEnv T
  | [] => (c, env)
  | v :: vs =>
    let p := c.set env v
    p.1.setList p.2 vs

/-- C8: a `get` from `Desync` performs exactly one host read and
transitions the cache to `Sync`; a `get` from `Sync` performs zero
host reads and returns the cached value; the `get` following any
`get` changes nothing (read idempotence); each `set(v)` performs
exactly one host write and caches `Sync(Some v)`; after `N` `set`s
exactly `N` host writes have occurred. -/
theorem sync_cell_read_write_counts {T : Type} (c : SyncCell T)
    (env : TestEnv T) :
    (c.cache = CacheEntry.Desync →
      c.get env =
        (env.cell, ⟨CacheEntry.Sync env.cell⟩,
          { env with total_reads := env.total_reads + 1 }))
    ∧ (∀ v, c.cache = CacheEntry.Sync v → c.get env = (v, c, env))
    ∧ SyncCell.get (c.get env).2.1 (c.get env).2.2 = c.get env
    ∧ (∀ v, c.set env v =
        (⟨CacheEntry.Sync (some v)⟩,
          { env with
              cell := some v
              total_writes := env.total_writes + 1 }))
    ∧ (∀ vs : List T,
        (c.setList env vs).2.total_writes = env.total_writes + vs.length) := by
  refine ⟨?_, ?_, ?_, fun v => rfl, ?_⟩
  · intro h
    simp [SyncCell.get, h, typedCellLoad]
  · intro v h
    simp [SyncCell.get, h]
  · cases h : c.cache <;> simp [SyncCell.get, h, typedCellLoad]
  · intro vs
    induction vs generalizing c env with
    | nil => simp [SyncCell.setList]
    | cons v vs ih =>
      simp only [SyncCell.setList, SyncCell.set, typedCellStore]
      rw [ih]
      simp [List.length_cons]
      omega

theorem sync_cell_read_write_counts_witness :
    (SyncCell.mk (CacheEntry.Desync) : SyncCell Nat).cache =
        CacheEntry.Desync
    ∧ (SyncCell.mk CacheEntry.Desync : SyncCell Nat).get ⟨some 5, 0, 0⟩ =
        (some 5, ⟨CacheEntry.Sync (some 5)⟩,
          { cell := some 5, total_reads := 0 + 1, total_writes := 0 }) :=
  ⟨rfl,
   (sync_cell_read_write_counts (SyncCell.mk CacheEntry.Desync)
      ⟨some 5, 0, 0⟩).1 rfl⟩

end Pdsl
